import Mathlib

/-!
Verification of the shard-to-binary-CSR converter
(`src/parallel-converters/parallel-shards.cpp`, function `loadParallelFileShards`).

The development shallowly embeds the stages of the converter:

* the per-line parser and the per-shard ingest loop (source lines 142-176);
* the global vertex/edge-count reductions (lines 182, 195-201);
* the vertex-range partition table and the `std::upper_bound` ownership
  lookup (lines 207-211, 245-246);
* the undirected doubling and bucketing of edges by owner together with the
  all-to-all exchange (lines 241-260, 270-305);
* the local sortedness check and sort (lines 322-335);
* the CSR offset-table reduction, prefix sum and write (lines 308-317,
  353-364), the edge-payload construction and write (lines 389-405), and the
  chunked-write loop used for oversized payloads (lines 363-380, 404-421).

Numeric conventions: `GraphElem` (a 64-bit signed integer in the source) is
modelled as `Int` where raw file values appear and as `Nat` in the
redistribution/CSR stages, where all vertex ids lie in `[0, globalVertexCount)`;
`GraphWeight` (a floating-point value in the source) is modelled as an exact
integer value, which is faithful for every operation the converter applies to a
weight: reading it, taking its absolute value, copying it, and comparing for
equality.  No rounding-sensitive arithmetic is performed on weights anywhere in
the source.
-/

namespace Vite

/-! ### The line parser (EdgeIngestor, source lines 142-176) -/

/-- The weight mode (`Weight_t` in the source): `ORG_WEIGHT`, `ABS_WEIGHT`, or
any other value (the unweighted case). -/
inductive Wt
  | org
  | absW
  | unw
deriving DecidableEq

/-- One lexical token of an input line: a numeric field, or the single
non-numeric delimiter character separating fields.  Numeric fields are modelled
as integers (see the header comment). -/
inductive Tok
  | num (n : Int)
  | delim
deriving DecidableEq

/-- The state of the `std::istringstream` built from one line: the unread
remainder of the token list, and whether `failbit` is set. -/
structure SS where
  rest : List Tok
  fail : Bool
deriving DecidableEq

/-- Formatted numeric extraction `iss >> v` (C++11 semantics): if the stream
has already failed, the operation is a no-op and `v` keeps its old value; if
the stream is at end-of-input, the sentry sets `failbit` and `v` keeps its old
value; if the next character is the (non-numeric) delimiter, the parse fails,
`failbit` is set and `v` is set to `0`; otherwise the numeric field is consumed
and stored into `v`. -/
def readNum (s : SS) (old : Int) : SS × Int :=
  if s.fail then (s, old)
  else
    match s.rest with
    | [] => (⟨[], true⟩, old)
    | Tok.num n :: r => (⟨r, false⟩, n)
    | Tok.delim :: r => (⟨Tok.delim :: r, true⟩, 0)

/-- Character extraction `iss >> ch`: if the stream has already failed, a
no-op; at end-of-input, sets `failbit`; otherwise consumes the next token (in
the well-formed lines considered here, always the delimiter). -/
def readCh (s : SS) : SS :=
  if s.fail then s
  else
    match s.rest with
    | [] => ⟨[], true⟩
    | _ :: r => ⟨r, false⟩

/-- `iss >> v0 >> ch >> v1 >> ch >> info >> ch >> w` (source lines 153, 155). -/
def read4 (s : SS) (v0 v1 info w : Int) : SS × Int × Int × Int × Int :=
  let (s, v0) := readNum s v0
  let s := readCh s
  let (s, v1) := readNum s v1
  let s := readCh s
  let (s, info) := readNum s info
  let s := readCh s
  let (s, w) := readNum s w
  (s, v0, v1, info, w)

/-- `iss >> v0 >> ch >> v1 >> ch >> info` (source line 159). -/
def read3 (s : SS) (v0 v1 info : Int) : SS × Int × Int × Int :=
  let (s, v0) := readNum s v0
  let s := readCh s
  let (s, v1) := readNum s v1
  let s := readCh s
  let (s, info) := readNum s info
  (s, v0, v1, info)

/-- The weight-mode dispatch exactly as written in the source (lines 152-159):

```
if (wtype == ORG_WEIGHT)
    iss >> v0 >> ch >> v1 >> ch >> info >> ch >> w;
if (wtype == ABS_WEIGHT) {
    iss >> v0 >> ch >> v1 >> ch >> info >> ch >> w;
    w = std::fabs(w);
}
else
    iss >> v0 >> ch >> v1 >> ch >> info;
```

Note that the two `if`s are separate statements: the `else` belongs to the
second `if` only, so in `ORG_WEIGHT` mode both the first four-field read and
the `else` three-field read execute, the second one continuing on the stream
state the first one left behind.  The initial values `v0 v1 info w` model the
indeterminate values of the four uninitialised locals declared at lines
144-145. -/
def parseLine (wt : Wt) (v0 v1 info w : Int) (line : List Tok) : Int × Int × Int × Int :=
  let s : SS := ⟨line, false⟩
  let (s, v0, v1, info, w) :=
    if wt = Wt.org then read4 s v0 v1 info w else (s, v0, v1, info, w)
  if wt = Wt.absW then
    let (_, v0, v1, info, w) := read4 s v0 v1 info w
    (v0, v1, info, |w|)
  else
    let (_, v0, v1, info) := read3 s v0 v1 info
    (v0, v1, info, w)

/-- The parsing policy as the specification states it (spec §4.2): three
mutually exclusive variants, each reading from a fresh stream over the line;
raw mode reads the four fields once and keeps the weight as-is, absolute mode
reads the four fields once and takes the weight's magnitude, unweighted mode
reads only the first three fields and stores weight zero. -/
def parseLineSpec (wt : Wt) (v0 v1 info w : Int) (line : List Tok) : Int × Int × Int × Int :=
  match wt with
  | Wt.org =>
      let (_, v0, v1, info, w) := read4 ⟨line, false⟩ v0 v1 info w
      (v0, v1, info, w)
  | Wt.absW =>
      let (_, v0, v1, info, w) := read4 ⟨line, false⟩ v0 v1 info w
      (v0, v1, info, |w|)
  | Wt.unw =>
      let (_, v0, v1, info) := read3 ⟨line, false⟩ v0 v1 info
      (v0, v1, info, 0)

/-- Renders a list of numeric fields as the token list of one delimiter
separated line, e.g. `[1, 2, 3]` stands for the line `1,2,3`. -/
def render : List Int → List Tok
  | [] => []
  | f :: fs => Tok.num f :: fs.flatMap (fun g => [Tok.delim, Tok.num g])

/-! ### The per-shard ingest loop (source lines 137-182) -/

/-- `GraphElemTuple` as used during ingest: two endpoint ids and a weight. -/
structure QTup where
  i : Int
  j : Int
  w : Int
deriving DecidableEq

/-- The loop-carried state of the ingest loop: `edgeList` and the running
maximum `numVertices` (initialised to `0` at source line 83). -/
structure IngestSt where
  edges : List QTup
  numV : Int
deriving DecidableEq

/-- One iteration of the `while (!ifs.eof())` body (source lines 142-176):
parse the line, decrement both endpoints when the input is one-based, add the
shard offsets `v_lo`/`v_hi`, append the tuple to `edgeList` unconditionally,
and fold both endpoints into the running maximum.  `jk` carries the
indeterminate initial values of the four uninitialised locals of this
iteration. -/
def ingestStep (oneB : Bool) (vlo vhi : Int) (wt : Wt) (jk : Int × Int × Int × Int)
    (st : IngestSt) (line : List Tok) : IngestSt :=
  let (v0, v1, _, w) := parseLine wt jk.1 jk.2.1 jk.2.2.1 jk.2.2.2 line
  let v0 := if oneB then v0 - 1 else v0
  let v1 := if oneB then v1 - 1 else v1
  let v0 := v0 + vlo
  let v1 := v1 + vhi
  let numV := if v0 > st.numV then v0 else st.numV
  let numV := if v1 > numV then v1 else numV
  ⟨st.edges ++ [⟨v0, v1, w⟩], numV⟩

/-- The ingest loop over the successive `getline` results.  `junk k` gives the
indeterminate initial values of the uninitialised locals in iteration `k`. -/
def ingestLoop (oneB : Bool) (vlo vhi : Int) (wt : Wt) (junk : Nat → Int × Int × Int × Int) :
    Nat → IngestSt → List (List Tok) → IngestSt
  | _, st, [] => st
  | k, st, line :: rest =>
      ingestLoop oneB vlo vhi wt junk (k + 1) (ingestStep oneB vlo vhi wt (junk k) st line) rest

/-- The sequence of lines the `while (!ifs.eof()) { std::getline(ifs, line); ... }`
loop actually processes, for a file whose data lines are `ls` and which does or
does not end with a final newline.  `getline` consuming the final newline does
not yet set `eofbit`, so when the file ends with a newline (and likewise when
the file is empty) the loop runs one extra iteration whose `getline` reads an
empty line at end-of-stream. -/
def fileIterations (ls : List (List Tok)) (endsNL : Bool) : List (List Tok) :=
  if endsNL || ls.isEmpty then ls ++ [[]] else ls

/-- Ingest of one whole shard file (source lines 137-180). -/
def ingestFile (oneB : Bool) (vlo vhi : Int) (wt : Wt) (junk : Nat → Int × Int × Int × Int)
    (ls : List (List Tok)) (endsNL : Bool) : IngestSt :=
  ingestLoop oneB vlo vhi wt junk 0 ⟨[], 0⟩ (fileIterations ls endsNL)

/-! ### Global metadata reduction (source lines 182, 195-201) -/

/-- `MPI_Allreduce(..., MPI_MAX, ...)` over each rank's `numVertices`.  Every
rank's contribution is itself at least `0` (the variable is initialised to `0`
and only ever increased), so folding from `0` is exact. -/
def maxReduce (locals : List Int) : Int :=
  locals.foldl max 0

/-- `globalNumVertices` as the code computes it (source lines 198-201): the max
reduction, plus one only when the input is zero-based
(`if (!indexOneBased) globalNumVertices += 1;`). -/
def globalNumVerticesOf (locals : List Int) (oneB : Bool) : Int :=
  maxReduce locals + (if oneB then 0 else 1)

/-- The vertex-count rule as the claim states it: on either index-base path,
`globalVertexCount` is the maximum observed (already-decremented) id plus one. -/
def globalNumVerticesClaim (locals : List Int) : Int :=
  maxReduce locals + 1

/-! ### Vertex partition and ownership lookup (source lines 207-211, 245-246)

From this stage on every vertex id lies in `[0, globalVertexCount)` (the ids
are zero-based and bounded by the agreed global count), so ids and the
partition boundary values are modelled as `Nat`; the source's signed 64-bit
division on the nonnegative values involved agrees with `Nat` division. -/

/-- `GraphElemTuple` in the redistribution and CSR stages, with ids in
`[0, globalVertexCount)`. -/
structure NTup where
  i : Nat
  j : Nat
  w : Int
deriving DecidableEq

/-- Per-rank `numEdges = edgeList.size()*2` (source line 182). -/
def numEdgesLocal (records : List NTup) : Nat :=
  records.length * 2

/-- `MPI_Allreduce(..., MPI_SUM, ...)` over each rank's `numEdges`
(source line 197). -/
def globalNumEdgesOf (perRank : List (List NTup)) : Nat :=
  (perRank.map numEdgesLocal).sum

/-- The partition boundary table (source lines 207-211):
`parts[0] = 0; for i in [1, nprocs]: parts[i] = (globalNumVertices * i) / nprocs`. -/
def partsOf (V P : Nat) : List Nat :=
  0 :: (List.range' 1 P).map (fun i => V * i / P)

/-- The index returned by `std::upper_bound(parts.begin(), parts.end(), v)`:
on the monotone table it is the position of the first entry strictly greater
than `v`, i.e. the length of the maximal prefix of entries `≤ v`. -/
def upperBoundIdx (l : List Nat) (v : Nat) : Nat :=
  (l.takeWhile (fun x => decide (x ≤ v))).length

/-- The ownership lookup `owner = (iter - parts.begin() - 1)`
(source lines 245-246, 255-256). -/
def ownerOf (l : List Nat) (v : Nat) : Nat :=
  upperBoundIdx l v - 1

/-- The reversed copy `(edgeList[i].j_, edgeList[i].i_, edgeList[i].w_)`
emplaced for the second endpoint (source line 259). -/
def revOf (r : NTup) : NTup :=
  ⟨r.j, r.i, r.w⟩

/-- The two directed edges one raw record emits, paired with the rank of the
bucket each is pushed to (source lines 241-260): the record itself to the
owner of its first endpoint, the reversed copy to the owner of its second
endpoint. -/
def emitsOf (parts : List Nat) (r : NTup) : List (Nat × NTup) :=
  [(ownerOf parts r.i, r), (ownerOf parts r.j, revOf r)]

/-- `outEdges[o].emplace_back(e)`. -/
def pushTo (out : List (List NTup)) (o : Nat) (e : NTup) : List (List NTup) :=
  out.set o (out.getD o [] ++ [e])

/-- The bucketing loop over the local records (source lines 241-260), with the
bucket table threaded through. -/
def distributeLoop (parts : List Nat) (out : List (List NTup)) : List NTup → List (List NTup)
  | [] => out
  | r :: rest =>
      distributeLoop parts
        (pushTo (pushTo out (ownerOf parts r.i) r) (ownerOf parts r.j) (revOf r)) rest

/-- The `outEdges` table of one rank: `nprocs` initially empty buckets filled
by the bucketing loop. -/
def outEdgesOf (parts : List Nat) (P : Nat) (records : List NTup) : List (List NTup) :=
  distributeLoop parts (List.replicate P []) records

/-- What rank `q` receives from the `MPI_Alltoallv` exchange (source lines
270-302): the senders' buckets destined for `q`, concatenated in sender-rank
order. -/
def receivedOf (parts : List Nat) (P : Nat) (perRank : List (List NTup)) (q : Nat) : List NTup :=
  ((List.range P).map (fun p => (outEdgesOf parts P (perRank.getD p [])).getD q [])).flatten

/-! ### LocalSorter (source lines 322-335) -/

/-- The comparator `ecmp` (source lines 322-323): lexicographic on
`(i_, j_)`, ignoring the weight. -/
def ecmp (a b : NTup) : Bool :=
  decide (a.i < b.i) || (decide (a.i = b.i) && decide (a.j < b.j))

/-- `std::is_sorted(first, last, ecmp)` (source line 325): no element compares
strictly below its predecessor. -/
def sortedCheck : List NTup → Bool
  | [] => true
  | [_] => true
  | a :: b :: rest => !ecmp b a && sortedCheck (b :: rest)

/-- The LocalSorter: skip the sort when the sequence is already ordered,
otherwise sort by `ecmp` (source lines 325-335).  `std::sort` is modelled by a
correct comparison sort; when the `(i_, j_)` keys are pairwise distinct the
sorted permutation is unique, so any correct sort — in particular the one the
source calls — produces this result. -/
def localSorter (l : List NTup) : List NTup :=
  if sortedCheck l then l else l.mergeSort (fun a b => !ecmp b a)

/-! ### PrefixCountBuilder and the offset-table write
(source lines 215, 241-260, 308-317, 353-364) -/

/-- `edgeCount[k]++` on a vector modelled as a list. -/
def bumpAt (l : List Nat) (k : Nat) : List Nat :=
  l.set k (l.getD k 0 + 1)

/-- One rank's local `edgeCount` vector: `globalNumVertices + 1` zero entries
(source line 215), with `edgeCount[vertex+1]++` executed for both endpoints of
every local raw record (source lines 247, 257). -/
def degreeCounts (V : Nat) (records : List NTup) : List Nat :=
  records.foldl (fun ec r => bumpAt (bumpAt ec (r.i + 1)) (r.j + 1))
    (List.replicate (V + 1) 0)

/-- `MPI_Reduce(MPI_IN_PLACE, edgeCount.data(), globalNumVertices, ..., MPI_SUM, 0, ...)`
(source lines 308-309): the root's buffer receives the element-wise sum over
all ranks of the first `globalNumVertices` entries only — the count argument is
`globalNumVertices`, although the buffer has `globalNumVertices + 1` entries —
while the last entry keeps the root's local value. -/
def reduceCounts (V : Nat) (counts : List (List Nat)) : List Nat :=
  (List.range (V + 1)).map fun k =>
    if k < V then (counts.map (fun c => c.getD k 0)).sum else (counts.headD []).getD k 0

/-- The root's local prefix sum
`for (i = 1; i < globalNumVertices; i++) edgeCount[i] += edgeCount[i-1];`
(source lines 315-316): indices `1 .. globalNumVertices - 1` only. -/
def prefixLoop (V : Nat) (ec : List Nat) : List Nat :=
  (List.range' 1 (V - 1)).foldl (fun l i => l.set i (l.getD i 0 + l.getD (i - 1) 0)) ec

/-- The offset-table entries rank 0 writes at byte offset `2*sizeof(GraphElem)`
(source lines 360-364): `tot_bytes = globalNumVertices * sizeof(GraphElem)`,
i.e. only the first `globalNumVertices` entries of the reduced and
prefix-summed buffer. -/
def writtenOffsetTable (V : Nat) (perRank : List (List NTup)) : List Nat :=
  (prefixLoop V (reduceCounts V (perRank.map (degreeCounts V)))).take V

/-! ### The edge-payload write (source lines 389-405) -/

/-- One `Edge` record of the output file: destination id (`tail_`) and weight. -/
structure EdgeRec where
  tail : Nat
  w : Int
deriving DecidableEq

/-- The `csrCols` buffer (source lines 390-394): constructed as
`std::vector<Edge> csrCols(numEdges)` — `numEdges` default-constructed
records, where `d` stands for the default-constructed `Edge` value — after
which the loop `csrCols.emplace_back(rredata[i].j_, rredata[i].w_)` appends
`numEdges` further records. -/
def csrColsOf (d : EdgeRec) (rr : List NTup) : List EdgeRec :=
  List.replicate rr.length d ++ rr.map (fun r => EdgeRec.mk r.j r.w)

/-- The records one rank actually writes into the edge region (source lines
389, 404-405): `tot_bytes = numEdges * sizeof(Edge)` bytes starting from
`csrCols.data()`, i.e. the first `numEdges` records of the buffer. -/
def writtenEdgeRecords (d : EdgeRec) (rr : List NTup) : List EdgeRec :=
  (csrColsOf d rr).take rr.length

/-- The edge records the claim says are written: the i-th record is the
(destination, weight) serialization of the i-th locally sorted received
edge. -/
def claimEdgeRecords (rr : List NTup) : List EdgeRec :=
  rr.map (fun r => EdgeRec.mk r.j r.w)

/-- `MPI_Exscan(&numEdges, &e_offset, 1, ..., MPI_SUM, ...)` (source line 397):
rank `r` obtains the sum of the lower ranks' edge counts (rank 0 keeps the
initial `0`). -/
def exscanOf (l : List Nat) (r : Nat) : Nat :=
  (l.take r).sum

/-! ### The chunked-write loop (source lines 363-380, 404-421) -/

/-- A byte-addressed file: `none` at offsets never written. -/
def FileM : Type := Nat → Option Nat

/-- A single positioned write `MPI_File_write_at(fh, off, data, len, ...)` of
the byte list `data` at byte offset `off`. -/
def writeAt (f : FileM) (off : Nat) (data : List Nat) : FileM :=
  fun a => if off ≤ a ∧ a < off + data.length then some (data.getD (a - off) 0) else f a

/-- The chunked-write loop (source lines 366-380 and 406-421):

```
int chunk_bytes = INT_MAX;           -- the per-call byte limit L
uint8_t *curr_pointer = buf;
uint64_t transf_bytes = 0;
while (transf_bytes < tot_bytes) {
    MPI_File_write_at(fh, offset, curr_pointer, chunk_bytes, ...);
    transf_bytes += chunk_bytes;
    offset += chunk_bytes;
    curr_pointer += chunk_bytes;
    if (tot_bytes - transf_bytes < INT_MAX)
        chunk_bytes = tot_bytes - transf_bytes;
}
```

modelled with the remainder `rem = tot_bytes - transf_bytes` and the unwritten
suffix `buf` of the payload carried explicitly; `fuel` bounds the number of
iterations (with `L ≥ 1` the loop needs at most `rem` iterations). -/
def chunkWriteLoop (L : Nat) : Nat → Nat → Nat → List Nat → Nat → FileM → FileM
  | 0, _, _, _, _, f => f
  | fuel + 1, chunk, off, buf, rem, f =>
      if rem = 0 then f
      else
        chunkWriteLoop L fuel (if rem - chunk < L then rem - chunk else chunk)
          (off + chunk) (buf.drop chunk) (rem - chunk) (writeAt f off (buf.take chunk))

/-- The offsets and lengths of the chunk writes the loop issues, in order. -/
def chunkList (L : Nat) : Nat → Nat → Nat → Nat → List (Nat × Nat)
  | 0, _, _, _ => []
  | fuel + 1, chunk, off, rem =>
      if rem = 0 then []
      else
        (off, chunk) ::
          chunkList L fuel (if rem - chunk < L then rem - chunk else chunk)
            (off + chunk) (rem - chunk)

/-- The whole bounded write of a payload (source lines 363-380, 404-421): one
single positioned write when `tot_bytes < L`, the chunked loop otherwise. -/
def writeChunked (L : Nat) (f : FileM) (off : Nat) (payload : List Nat) : FileM :=
  if payload.length < L then writeAt f off payload
  else chunkWriteLoop L payload.length L off payload payload.length f

/-- A concrete choice of indeterminate initial values for the uninitialised
parser locals: all `5`. -/
def junkFive : Nat → Int × Int × Int × Int := fun _ => (5, 5, 5, 5)

/-- A second concrete choice of indeterminate initial values: all `7`. -/
def junkSeven : Nat → Int × Int × Int × Int := fun _ => (7, 7, 7, 7)

/-! ## Theorems for the claims -/

/-- C3: the claim says each weight mode's parsing policy is followed exactly —
raw mode reads the four fields exactly once and keeps the weight, unweighted
mode stores weight zero.  The code violates both: the missing `else` between
the `ORG_WEIGHT` and `ABS_WEIGHT` branches makes the three-field `else` read
re-execute on the already-consumed stream in raw mode, overwriting the first
endpoint with `0` whenever the line has content after the fourth field (here
the line `1,2,3,9,6,7,8` parses to endpoint1 `0` instead of `1`); and in
unweighted mode the stored weight is the indeterminate initial value of the
uninitialised local `w`, not zero (here the line `4,5,6` stores whatever `jw`
happened to be, while the stated policy stores `0`). -/
theorem c3_weight_mode_parsing_bug :
    parseLine Wt.org 0 0 0 0 (render [1, 2, 3, 9, 6, 7, 8]) = (0, 2, 3, 9) ∧
    parseLineSpec Wt.org 0 0 0 0 (render [1, 2, 3, 9, 6, 7, 8]) = (1, 2, 3, 9) ∧
    (∀ jw : Int, parseLine Wt.unw 0 0 0 jw (render [4, 5, 6]) = (4, 5, 6, jw)) ∧
    parseLineSpec Wt.unw 0 0 0 7 (render [4, 5, 6]) = (4, 5, 6, 0) :=
  ⟨by decide, by decide, fun _ => rfl, by decide⟩

/-- C6: the claim says trailing blank lines are never converted into spurious
edges, so the local edge-list length equals the number of data lines.  The
code's `while (!ifs.eof())` loop violates this: for a file holding the single
data line `0,1,3,2` followed by a final newline, the final `getline` reads an
empty line at end-of-stream, every extraction fails leaving the uninitialised
locals untouched, and a spurious garbage-valued edge is appended — the edge
list has length 2, not 1, and its content depends on the indeterminate initial
values of the locals (`junkFive` versus `junkSeven`). -/
theorem c6_trailing_newline_spurious_edge :
    (∀ junk : Nat → Int × Int × Int × Int,
      ((ingestFile false 0 0 Wt.org junk [render [0, 1, 3, 2]] true).edges).length = 2) ∧
    [render [0, 1, 3, 2]].length = 1 ∧
    (ingestFile false 0 0 Wt.org junkFive [render [0, 1, 3, 2]] true).edges ≠
      (ingestFile false 0 0 Wt.org junkSeven [render [0, 1, 3, 2]] true).edges :=
  ⟨fun _ => rfl, rfl, by decide⟩

/-- C4: the claim says the max-plus-one rule holds on both index-base paths.
It holds on the zero-based path, but on the one-based path the code adds
nothing after the max reduction (`if (!indexOneBased) globalNumVertices += 1;`)
although both endpoints were already decremented to zero-based ids before the
maximum was taken: for a single shard whose only line is `2,1,0` (one-based
ids 2 and 1, decremented to 1 and 0), the local maximum decremented id is 1,
the code computes `globalNumVertices = 1` where the claimed rule gives 2, and
the observed id 1 then fails to lie in `[0, globalNumVertices)`. -/
theorem c4_one_based_vertex_count_off_by_one :
    (∀ junk : Nat → Int × Int × Int × Int,
      (ingestFile true 0 0 Wt.unw junk [render [2, 1, 0]] false).numV = 1 ∧
      globalNumVerticesOf [(ingestFile true 0 0 Wt.unw junk [render [2, 1, 0]] false).numV]
        true = 1) ∧
    globalNumVerticesClaim [1] = 2 ∧ ¬ ((1 : Int) < 1) :=
  ⟨fun _ => ⟨rfl, rfl⟩, by decide, by decide⟩

/-- C2: the claim says the offset table written right after the two header
integers has `globalVertexCount + 1` entries with the last equal to
`globalEdgeCount`.  The code writes only `globalVertexCount` entries
(`tot_bytes = globalNumVertices * sizeof(GraphElem)`), reduces only the first
`globalVertexCount` entries of the `globalVertexCount + 1`-element buffer, and
prefix-sums only indices `1 .. globalVertexCount - 1`: for the run with
`globalVertexCount = 2` and the two local records `(0,1)` and `(1,0)`
(`globalEdgeCount = 4`), the written table is `[0, 2]` — two entries, not
three, and no entry carries the value 4. -/
theorem c2_offset_table_truncated :
    writtenOffsetTable 2 [[⟨0, 1, 1⟩, ⟨1, 0, 1⟩]] = [0, 2] ∧
    (writtenOffsetTable 2 [[⟨0, 1, 1⟩, ⟨1, 0, 1⟩]]).length ≠ 2 + 1 := by
  decide

/-- C1: the claim says the records written to the edge region are exactly the
serialized locally sorted received edges.  The code constructs
`std::vector<Edge> csrCols(numEdges)` — `numEdges` default-constructed
records — and then `emplace_back`s the real records after them, so the
`numEdges * sizeof(Edge)` bytes written from `csrCols.data()` are the
default-constructed records, whatever the default `Edge` value `d` is: for the
received sorted list `[(0,1,1), (0,2,1)]` the written records are `[d, d]`,
which cannot equal the claimed serialization `[(1,1), (2,1)]` for any `d`. -/
theorem c1_edge_records_default_constructed :
    (∀ d : EdgeRec, writtenEdgeRecords d [⟨0, 1, 1⟩, ⟨0, 2, 1⟩] = [d, d]) ∧
    (∀ d : EdgeRec, writtenEdgeRecords d [⟨0, 1, 1⟩, ⟨0, 2, 1⟩] ≠
      claimEdgeRecords [⟨0, 1, 1⟩, ⟨0, 2, 1⟩]) := by
  refine ⟨fun _ => rfl, fun d h => ?_⟩
  simp [writtenEdgeRecords, csrColsOf, claimEdgeRecords, List.replicate] at h
  obtain ⟨rfl, h2⟩ := h
  simp at h2

/-- C10: with no parsed records anywhere, every rank's local maximum stays at
its initialisation value 0, the max reduction yields 0, the zero-based
adjustment adds 1, and the edge-count sum is 0 — so the header declares
`globalVertexCount = 1` and `globalEdgeCount = 0`, exactly as claimed. -/
theorem c10_empty_input_header (P : Nat) (hP : 1 ≤ P) :
    maxReduce (List.replicate P 0) = 0 ∧
    globalNumVerticesOf (List.replicate P 0) false = 1 ∧
    globalNumEdgesOf (List.replicate P []) = 0 := by
  have hmax : ∀ n : Nat, (List.replicate n (0 : Int)).foldl max 0 = 0 := by
    intro n
    induction n with
    | zero => rfl
    | succ k ih => simpa [List.replicate, max_self] using ih
  refine ⟨hmax P, ?_, ?_⟩
  · simp [globalNumVerticesOf, maxReduce, hmax P]
  · simp [globalNumEdgesOf, List.map_replicate, numEdgesLocal]

/-- Witness for C10 at the concrete process count 2. -/
theorem c10_empty_input_header_witness :
    1 ≤ 2 ∧
    (maxReduce (List.replicate 2 0) = 0 ∧
      globalNumVerticesOf (List.replicate 2 0) false = 1 ∧
      globalNumEdgesOf (List.replicate 2 []) = 0) :=
  ⟨by decide, c10_empty_input_header 2 (by decide)⟩

/-! ### The LocalSorter's two paths (claim C9) -/

/-- Two edges carry distinct `(source, destination)` keys. -/
def keyNe (a b : NTup) : Prop :=
  ¬(a.i = b.i ∧ a.j = b.j)

/-- The strict lexicographic order on `(source, destination)` keys. -/
def keyLt (a b : NTup) : Prop :=
  a.i < b.i ∨ (a.i = b.i ∧ a.j < b.j)

instance : DecidableRel keyNe := fun a b => by unfold keyNe; infer_instance

instance : IsAntisymm NTup keyLt :=
  ⟨fun a b h1 h2 => False.elim (by revert h1 h2; unfold keyLt; omega)⟩

instance : IsTrans NTup keyLt :=
  ⟨fun a b c h1 h2 => by revert h1 h2; unfold keyLt; omega⟩

/-- `std::is_sorted` succeeds exactly when no element compares `ecmp`-below its
predecessor. -/
theorem sortedCheck_iff (l : List NTup) :
    sortedCheck l = true ↔ List.Chain' (fun a b => ¬(ecmp b a = true)) l := by
  induction l with
  | nil => simp [sortedCheck]
  | cons a rest ih =>
      cases rest with
      | nil => simp [sortedCheck]
      | cons b r =>
          simp [sortedCheck, List.chain'_cons, Bool.and_eq_true] at ih ⊢
          tauto

/-- The non-strict comparison `fun a b => !ecmp b a` is transitive. -/
theorem ecmpLe_trans :
    ∀ a b c : NTup, (!ecmp b a) = true → (!ecmp c b) = true → (!ecmp c a) = true := by
  intro a b c
  simp [ecmp]
  omega

/-- The non-strict comparison `fun a b => !ecmp b a` is total. -/
theorem ecmpLe_total : ∀ a b : NTup, ((!ecmp b a) || (!ecmp a b)) = true := by
  intro a b
  simp [ecmp]
  omega

/-- Both LocalSorter paths return a permutation of the input. -/
theorem localSorter_perm (l : List NTup) : (localSorter l).Perm l := by
  unfold localSorter
  split
  · exact List.Perm.refl l
  · exact List.mergeSort_perm l _

/-- Both LocalSorter paths return a sequence ordered under the comparator. -/
theorem localSorter_sorted (l : List NTup) :
    List.Pairwise (fun a b => (!ecmp b a) = true) (localSorter l) := by
  unfold localSorter
  split
  · rename_i h
    rw [sortedCheck_iff] at h
    have hch : List.Chain' (fun a b : NTup => (!ecmp b a) = true) l := by
      simpa [Bool.not_eq_true'] using h
    haveI : IsTrans NTup (fun a b : NTup => (!ecmp b a) = true) :=
      ⟨fun a b c h1 h2 => ecmpLe_trans a b c h1 h2⟩
    exact List.chain'_iff_pairwise.mp hch
  · exact List.sorted_mergeSort ecmpLe_trans ecmpLe_total l

/-- On inputs with pairwise distinct `(source, destination)` keys the
LocalSorter's output is strictly sorted. -/
theorem localSorter_sorted_strict (l : List NTup) (hkeys : l.Pairwise keyNe) :
    List.Pairwise keyLt (localSorter l) := by
  have h1 := localSorter_sorted l
  have h2 : (localSorter l).Pairwise keyNe :=
    ((localSorter_perm l).pairwise_iff (fun h => by unfold keyNe at *; tauto)).mpr hkeys
  exact (h1.and h2).imp (fun {a b} h => by
    obtain ⟨hle, hne⟩ := h
    simp [ecmp] at hle
    unfold keyNe at hne
    unfold keyLt
    omega)

/-- C9, counterexample: the claim asserts the final sequence is identical
regardless of the initial permutation, for every multiset of received edges.
The comparator ignores weights, so two edges with equal `(source, destination)`
keys but different weights defeat it: both `[(0,0,1), (0,0,2)]` and its swap
`[(0,0,2), (0,0,1)]` pass the `std::is_sorted` check, are returned unchanged by
the LocalSorter, and differ — although they are permutations of the same
multiset. -/
theorem c9_counterexample :
    localSorter [⟨0, 0, 1⟩, ⟨0, 0, 2⟩] ≠ localSorter [⟨0, 0, 2⟩, ⟨0, 0, 1⟩] ∧
    ([⟨0, 0, 1⟩, ⟨0, 0, 2⟩] : List NTup).Perm [⟨0, 0, 2⟩, ⟨0, 0, 1⟩] :=
  ⟨by decide, List.Perm.swap _ _ _⟩

/-- C9, amended: for every two permutations of the same multiset of received
edges in which no two edges share the same `(source, destination)` key, the
LocalSorter produces the identical final sequence — element for element,
weights included — regardless of which of its two paths (skip or sort) is
taken on either input. -/
theorem c9_sorter_path_independent (l1 l2 : List NTup) (hperm : l1.Perm l2)
    (hkeys : l1.Pairwise keyNe) :
    localSorter l1 = localSorter l2 := by
  have hk2 : l2.Pairwise keyNe :=
    (hperm.pairwise_iff (fun h => by unfold keyNe at *; tauto)).mp hkeys
  exact List.eq_of_perm_of_sorted
    (((localSorter_perm l1).trans hperm).trans (localSorter_perm l2).symm)
    (localSorter_sorted_strict l1 hkeys) (localSorter_sorted_strict l2 hk2)

/-- Witness for the amended C9: a shuffled list (which takes the sort path)
against its sorted permutation (which takes the skip path). -/
theorem c9_sorter_path_independent_witness :
    (([⟨2, 3, 4⟩, ⟨0, 1, 1⟩] : List NTup).Perm [⟨0, 1, 1⟩, ⟨2, 3, 4⟩] ∧
      ([⟨2, 3, 4⟩, ⟨0, 1, 1⟩] : List NTup).Pairwise keyNe) ∧
    localSorter [⟨2, 3, 4⟩, ⟨0, 1, 1⟩] = localSorter [⟨0, 1, 1⟩, ⟨2, 3, 4⟩] :=
  ⟨⟨List.Perm.swap _ _ _, by decide⟩,
    c9_sorter_path_independent _ _ (List.Perm.swap _ _ _) (by decide)⟩

/-! ### The partition boundary table and ownership lookup (claim C7) -/

theorem takeWhile_len_le (p : Nat → Bool) (l : List Nat) : (l.takeWhile p).length ≤ l.length := by
  induction l with
  | nil => simp
  | cons a t ih =>
      by_cases h : p a = true
      · simpa [List.takeWhile, h] using Nat.succ_le_succ ih
      · simp [List.takeWhile, h]

theorem takeWhile_getD_of_lt (p : Nat → Bool) (l : List Nat) (i : Nat)
    (h : i < (l.takeWhile p).length) : p (l.getD i 0) = true := by
  induction l generalizing i with
  | nil => simp at h
  | cons a t ih =>
      by_cases hp : p a = true
      · cases i with
        | zero => simpa using hp
        | succ k =>
            simp [List.takeWhile, hp] at h
            simpa using ih k (by omega)
      · simp [List.takeWhile, hp] at h

theorem takeWhile_getD_boundary (p : Nat → Bool) (l : List Nat)
    (h : (l.takeWhile p).length < l.length) : p (l.getD (l.takeWhile p).length 0) = false := by
  induction l with
  | nil => simp at h
  | cons a t ih =>
      by_cases hp : p a = true
      · simp [List.takeWhile, hp] at h ⊢
        simpa using ih (by omega)
      · simpa [List.takeWhile, hp] using hp

theorem partsOf_length (V P : Nat) : (partsOf V P).length = P + 1 := by
  simp [partsOf]

theorem partsOf_getD (V P : Nat) (i : Nat) (hi : i ≤ P) :
    (partsOf V P).getD i 0 = V * i / P := by
  cases i with
  | zero => simp [partsOf]
  | succ k =>
      have hk : k < P := by omega
      simp [partsOf, List.getD_eq_getElem?_getD, List.getElem?_map,
        List.getElem?_range' 1 1 hk]
      ring_nf

theorem partsOf_mono (V P : Nat) (i j : Nat) (hij : i ≤ j) (hj : j ≤ P) :
    (partsOf V P).getD i 0 ≤ (partsOf V P).getD j 0 := by
  rw [partsOf_getD V P i (le_trans hij hj), partsOf_getD V P j hj]
  exact Nat.div_le_div_right (Nat.mul_le_mul_left V hij)

theorem upperBoundIdx_pos (V P : Nat) (v : Nat) : 1 ≤ upperBoundIdx (partsOf V P) v := by
  simp [upperBoundIdx, partsOf, List.takeWhile]

theorem upperBoundIdx_prefix_le (l : List Nat) (v i : Nat) (h : i < upperBoundIdx l v) :
    l.getD i 0 ≤ v :=
  of_decide_eq_true (takeWhile_getD_of_lt (fun x => decide (x ≤ v)) l i h)

theorem upperBoundIdx_boundary_gt (l : List Nat) (v : Nat) (h : upperBoundIdx l v < l.length) :
    v < l.getD (upperBoundIdx l v) 0 := by
  have hb := takeWhile_getD_boundary (fun x => decide (x ≤ v)) l h
  have : ¬ (l.getD (upperBoundIdx l v) 0 ≤ v) := of_decide_eq_false hb
  omega

theorem upperBoundIdx_le_len (l : List Nat) (v : Nat) : upperBoundIdx l v ≤ l.length :=
  takeWhile_len_le (fun x => decide (x ≤ v)) l

theorem upperBoundIdx_le (V P : Nat) (hP : 1 ≤ P) (v : Nat) (hv : v < V) :
    upperBoundIdx (partsOf V P) v ≤ P := by
  by_contra hlt
  have hle := upperBoundIdx_le_len (partsOf V P) v
  rw [partsOf_length] at hle
  have hPle := upperBoundIdx_prefix_le (partsOf V P) v P (by omega)
  rw [partsOf_getD V P P (le_refl P)] at hPle
  rw [Nat.mul_div_cancel V hP] at hPle
  omega

theorem ownerOf_bracket (V P : Nat) (hP : 1 ≤ P) (v : Nat) (hv : v < V) :
    (partsOf V P).getD (ownerOf (partsOf V P) v) 0 ≤ v ∧
      v < (partsOf V P).getD (ownerOf (partsOf V P) v + 1) 0 := by
  have h1 := upperBoundIdx_pos V P v
  have h2 := upperBoundIdx_le V P hP v hv
  constructor
  · exact upperBoundIdx_prefix_le (partsOf V P) v _ (by unfold ownerOf; omega)
  · have hco : ownerOf (partsOf V P) v + 1 = upperBoundIdx (partsOf V P) v := by
      unfold ownerOf; omega
    rw [hco]
    exact upperBoundIdx_boundary_gt (partsOf V P) v (by rw [partsOf_length]; omega)

theorem ownerOf_unique (V P : Nat) (hP : 1 ≤ P) (v : Nat) (hv : v < V) (r : Nat)
    (hlow : (partsOf V P).getD r 0 ≤ v) (hhigh : v < (partsOf V P).getD (r + 1) 0) :
    r = ownerOf (partsOf V P) v := by
  have h1 := upperBoundIdx_pos V P v
  have h2 := upperBoundIdx_le V P hP v hv
  have hr1 : r + 1 ≤ P + 1 := by
    by_contra hgt
    have hz : (partsOf V P).getD (r + 1) 0 = 0 := by
      apply List.getD_eq_default
      rw [partsOf_length]; omega
    omega
  have hrc : r < upperBoundIdx (partsOf V P) v := by
    by_contra hge
    have hcr : (partsOf V P).getD (upperBoundIdx (partsOf V P) v) 0 ≤ (partsOf V P).getD r 0 :=
      partsOf_mono V P _ r (by omega) (by omega)
    have hb := upperBoundIdx_boundary_gt (partsOf V P) v (by rw [partsOf_length]; omega)
    omega
  have hcr1 : upperBoundIdx (partsOf V P) v ≤ r + 1 := by
    by_contra hgt
    have := upperBoundIdx_prefix_le (partsOf V P) v (r + 1) (by omega)
    omega
  unfold ownerOf
  omega

theorem ownerOf_lt (V P : Nat) (hP : 1 ≤ P) (v : Nat) (hv : v < V) :
    ownerOf (partsOf V P) v < P := by
  have h1 := upperBoundIdx_pos V P v
  have h2 := upperBoundIdx_le V P hP v hv
  unfold ownerOf
  omega

/-- C7, counterexample: the claim's final clause says a vertex id equal to a
boundary value `parts[i]` is assigned to interval `i`.  With
`globalVertexCount = 1` and two processes the table is `[0, 0, 1]`; the vertex
id `0` equals the boundary value `parts[0]`, yet the upper-bound lookup
assigns it to interval 1, because interval 0 is empty (`parts[0] = parts[1]`).
As stated — one claimed owner for each boundary index the id equals — the
clause is even self-contradictory here, since `0` equals both `parts[0]` and
`parts[1]`. -/
theorem c7_counterexample :
    partsOf 1 2 = [0, 0, 1] ∧ (partsOf 1 2).getD 0 0 = 0 ∧
      ownerOf (partsOf 1 2) 0 = 1 ∧ (1 : Nat) ≠ 0 := by
  decide

/-- C7, amended: for every `globalVertexCount V ≥ 0` and process count
`P ≥ 1`, the table has `P + 1` entries with `parts[i] = V * i / P`, hence
`parts[0] = 0`, `parts[P] = V`, and monotonicity; every vertex id `v < V` is
assigned by the upper-bound lookup to the unique rank `r` with
`parts[r] ≤ v < parts[r+1]` — so no vertex is dropped — and a vertex id equal
to a boundary value `parts[i]` is assigned to interval `i` whenever that
interval is nonempty (`parts[i] < parts[i+1]`). -/
theorem c7_partition_amended (V P : Nat) (hP : 1 ≤ P) :
    ((partsOf V P).length = P + 1 ∧
      (∀ i, i ≤ P → (partsOf V P).getD i 0 = V * i / P) ∧
      (partsOf V P).getD 0 0 = 0 ∧
      (partsOf V P).getD P 0 = V ∧
      (∀ i j, i ≤ j → j ≤ P → (partsOf V P).getD i 0 ≤ (partsOf V P).getD j 0)) ∧
    (∀ v, v < V →
      ((partsOf V P).getD (ownerOf (partsOf V P) v) 0 ≤ v ∧
        v < (partsOf V P).getD (ownerOf (partsOf V P) v + 1) 0) ∧
      (∀ r, (partsOf V P).getD r 0 ≤ v → v < (partsOf V P).getD (r + 1) 0 →
        r = ownerOf (partsOf V P) v)) ∧
    (∀ i, i < P → (partsOf V P).getD i 0 < (partsOf V P).getD (i + 1) 0 →
      ownerOf (partsOf V P) ((partsOf V P).getD i 0) = i) := by
  refine ⟨⟨partsOf_length V P, fun i hi => partsOf_getD V P i hi, by simp [partsOf], ?_, ?_⟩,
    fun v hv => ⟨ownerOf_bracket V P hP v hv, fun r h1 h2 => ownerOf_unique V P hP v hv r h1 h2⟩,
    ?_⟩
  · rw [partsOf_getD V P P (le_refl P)]
    exact Nat.mul_div_cancel V hP
  · exact fun i j hij hj => partsOf_mono V P i j hij hj
  · intro i hi hne
    have hvV : (partsOf V P).getD i 0 < V := by
      have h1 : (partsOf V P).getD (i + 1) 0 ≤ (partsOf V P).getD P 0 :=
        partsOf_mono V P (i + 1) P (by omega) (le_refl P)
      have h2 : (partsOf V P).getD P 0 = V := by
        rw [partsOf_getD V P P (le_refl P)]
        exact Nat.mul_div_cancel V hP
      omega
    exact (ownerOf_unique V P hP _ hvV i (le_refl _) hne).symm

/-- Witness for the amended C7 at `globalVertexCount = 5`, two processes. -/
theorem c7_partition_amended_witness :
    1 ≤ 2 ∧
    (((partsOf 5 2).length = 2 + 1 ∧
      (∀ i, i ≤ 2 → (partsOf 5 2).getD i 0 = 5 * i / 2) ∧
      (partsOf 5 2).getD 0 0 = 0 ∧
      (partsOf 5 2).getD 2 0 = 5 ∧
      (∀ i j, i ≤ j → j ≤ 2 → (partsOf 5 2).getD i 0 ≤ (partsOf 5 2).getD j 0)) ∧
    (∀ v, v < 5 →
      ((partsOf 5 2).getD (ownerOf (partsOf 5 2) v) 0 ≤ v ∧
        v < (partsOf 5 2).getD (ownerOf (partsOf 5 2) v + 1) 0) ∧
      (∀ r, (partsOf 5 2).getD r 0 ≤ v → v < (partsOf 5 2).getD (r + 1) 0 →
        r = ownerOf (partsOf 5 2) v)) ∧
    (∀ i, i < 2 → (partsOf 5 2).getD i 0 < (partsOf 5 2).getD (i + 1) 0 →
      ownerOf (partsOf 5 2) ((partsOf 5 2).getD i 0) = i)) :=
  ⟨by decide, c7_partition_amended 5 2 (by decide)⟩

/-! ### The chunked-write loop (claim C8) -/


theorem writeAt_nil (f : FileM) (off : Nat) : writeAt f off [] = f := by
  funext a
  simp [writeAt]

theorem writeAt_append (f : FileM) (off : Nat) (d1 d2 : List Nat) :
    writeAt (writeAt f off d1) (off + d1.length) d2 = writeAt f off (d1 ++ d2) := by
  funext a
  simp only [writeAt, List.length_append]
  by_cases h2 : off + d1.length ≤ a ∧ a < off + d1.length + d2.length
  · rw [if_pos h2, if_pos (by omega)]
    rw [List.getD_append_right d1 d2 0 (a - off) (by omega)]
    congr 2
    omega
  · rw [if_neg h2]
    by_cases h1 : off ≤ a ∧ a < off + d1.length
    · rw [if_pos h1, if_pos (by omega)]
      rw [List.getD_append d1 d2 0 (a - off) (by omega)]
    · rw [if_neg h1, if_neg (by omega)]

theorem chunkInvStep (L chunk rem : Nat) (h : chunk = min L rem) :
    (if rem - chunk < L then rem - chunk else chunk) = min L (rem - chunk) := by
  split
  · omega
  · omega

theorem chunkWriteLoop_eq (L : Nat) (hL : 1 ≤ L) :
    ∀ (fuel : Nat) (chunk off : Nat) (buf : List Nat) (rem : Nat) (f : FileM),
      chunk = min L rem → buf.length = rem → rem ≤ fuel →
      chunkWriteLoop L fuel chunk off buf rem f = writeAt f off buf := by
  intro fuel
  induction fuel with
  | zero =>
      intro chunk off buf rem f hchunk hbuf hfuel
      have hr : rem = 0 := by omega
      subst hr
      have hb : buf = [] := List.length_eq_zero.mp hbuf
      subst hb
      rw [writeAt_nil]
      rfl
  | succ n ih =>
      intro chunk off buf rem f hchunk hbuf hfuel
      by_cases hrem : rem = 0
      · subst hrem
        have hb : buf = [] := List.length_eq_zero.mp hbuf
        subst hb
        rw [writeAt_nil]
        simp [chunkWriteLoop]
      · have hch1 : 1 ≤ chunk := by omega
        have hchle : chunk ≤ rem := by omega
        rw [chunkWriteLoop, if_neg hrem]
        rw [ih _ _ _ _ _ (chunkInvStep L chunk rem hchunk) (by simp [hbuf]) (by omega)]
        have hw := writeAt_append f off (buf.take chunk) (buf.drop chunk)
        rw [List.length_take, hbuf, Nat.min_eq_left hchle] at hw
        rw [hw, List.take_append_drop]

theorem chunkList_sum (L : Nat) (hL : 1 ≤ L) :
    ∀ (fuel : Nat) (chunk off rem : Nat),
      chunk = min L rem → rem ≤ fuel →
      ((chunkList L fuel chunk off rem).map Prod.snd).sum = rem := by
  intro fuel
  induction fuel with
  | zero =>
      intro chunk off rem hchunk hfuel
      have hr : rem = 0 := by omega
      subst hr
      rfl
  | succ n ih =>
      intro chunk off rem hchunk hfuel
      by_cases hrem : rem = 0
      · subst hrem
        simp [chunkList]
      · rw [chunkList, if_neg hrem]
        simp only [List.map_cons, List.sum_cons]
        rw [ih _ _ _ (chunkInvStep L chunk rem hchunk) (by omega)]
        omega

theorem chunkList_mem_off (L : Nat) (hL : 1 ≤ L) :
    ∀ (fuel : Nat) (chunk off rem : Nat),
      chunk = min L rem → rem ≤ fuel →
      ∀ pr ∈ chunkList L fuel chunk off rem, off ≤ pr.1 := by
  intro fuel
  induction fuel with
  | zero =>
      intro chunk off rem hchunk hfuel
      have hr : rem = 0 := by omega
      subst hr
      intro pr hpr
      simp [chunkList] at hpr
  | succ n ih =>
      intro chunk off rem hchunk hfuel pr hpr
      by_cases hrem : rem = 0
      · subst hrem
        simp [chunkList] at hpr
      · rw [chunkList, if_neg hrem] at hpr
        rcases List.mem_cons.mp hpr with h | h
        · subst h; exact le_refl _
        · have := ih _ (off + chunk) _ (chunkInvStep L chunk rem hchunk) (by omega) pr h
          omega

theorem chunkList_chain (L : Nat) (hL : 1 ≤ L) :
    ∀ (fuel : Nat) (chunk off rem : Nat),
      chunk = min L rem → rem ≤ fuel →
      List.Chain' (· < ·) ((chunkList L fuel chunk off rem).map Prod.fst) := by
  intro fuel
  induction fuel with
  | zero =>
      intro chunk off rem hchunk hfuel
      have hr : rem = 0 := by omega
      subst hr
      simp [chunkList]
  | succ n ih =>
      intro chunk off rem hchunk hfuel
      by_cases hrem : rem = 0
      · subst hrem
        simp [chunkList]
      · rw [chunkList, if_neg hrem]
        simp only [List.map_cons]
        refine List.chain'_cons'.mpr
          ⟨?_, ih _ (off + chunk) _ (chunkInvStep L chunk rem hchunk) (by omega)⟩
        intro y hy
        have hy' := List.mem_of_mem_head? hy
        rcases List.mem_map.mp hy' with ⟨pr, hpr, rfl⟩
        have hoff := chunkList_mem_off L hL n _ (off + chunk) _
          (chunkInvStep L chunk rem hchunk) (by omega) pr hpr
        have hch1 : 1 ≤ chunk := by omega
        omega

/-- C8: for every payload whose size reaches the per-call byte limit `L`
(so the chunked loop is taken) and every starting offset, the chunked-write
loop produces byte-for-byte the same file contents as one unbounded positioned
write of the whole payload; the chunks are issued at strictly increasing
offsets and their lengths sum to the payload size exactly (each chunk after a
full one is resized to the remainder once the remainder drops below the
limit, which is what keeps the sum exact). -/
theorem c8_chunked_write_equiv (L : Nat) (f : FileM) (off : Nat) (payload : List Nat)
    (hL : 1 ≤ L) (htot : L ≤ payload.length) :
    writeChunked L f off payload = writeAt f off payload ∧
    ((chunkList L payload.length L off payload.length).map Prod.snd).sum = payload.length ∧
    List.Chain' (· < ·) ((chunkList L payload.length L off payload.length).map Prod.fst) := by
  have hmin : L = min L payload.length := by omega
  refine ⟨?_, chunkList_sum L hL _ _ off _ hmin (le_refl _),
    chunkList_chain L hL _ _ off _ hmin (le_refl _)⟩
  rw [writeChunked, if_neg (by omega)]
  exact chunkWriteLoop_eq L hL payload.length L off payload payload.length f hmin rfl (le_refl _)

/-- Witness for C8: limit 2, a five-byte payload at offset 7, on the empty
file. -/
theorem c8_chunked_write_equiv_witness :
    (1 ≤ 2 ∧ 2 ≤ ([10, 11, 12, 13, 14] : List Nat).length) ∧
    (writeChunked 2 (fun _ => none) 7 [10, 11, 12, 13, 14] =
        writeAt (fun _ => none) 7 [10, 11, 12, 13, 14] ∧
      ((chunkList 2 ([10, 11, 12, 13, 14] : List Nat).length 2 7
          ([10, 11, 12, 13, 14] : List Nat).length).map Prod.snd).sum =
        ([10, 11, 12, 13, 14] : List Nat).length ∧
      List.Chain' (· < ·) ((chunkList 2 ([10, 11, 12, 13, 14] : List Nat).length 2 7
          ([10, 11, 12, 13, 14] : List Nat).length).map Prod.fst)) :=
  ⟨⟨by decide, by decide⟩,
    c8_chunked_write_equiv 2 (fun _ => none) 7 [10, 11, 12, 13, 14] (by decide) (by decide)⟩

/-! ### Edge redistribution and the undirected-doubling invariant (claim C5) -/

theorem pushTo_length (out : List (List NTup)) (o : Nat) (e : NTup) :
    (pushTo out o e).length = out.length := by
  simp [pushTo]

theorem pushTo_getD (out : List (List NTup)) (o : Nat) (e : NTup) (q : Nat)
    (ho : o < out.length) :
    (pushTo out o e).getD q [] = if o = q then out.getD q [] ++ [e] else out.getD q [] := by
  unfold pushTo
  simp only [List.getD_eq_getElem?_getD, List.getElem?_set, ho, if_true]
  split
  · rename_i h
    subst h
    simp [List.getD_eq_getElem?_getD]
  · rfl

theorem distributeLoop_length (parts : List Nat) (records : List NTup) :
    ∀ out : List (List NTup), (distributeLoop parts out records).length = out.length := by
  induction records with
  | nil => intro out; rfl
  | cons r rest ih =>
      intro out
      rw [distributeLoop, ih, pushTo_length, pushTo_length]

theorem distributeLoop_getD (parts : List Nat) (records : List NTup) :
    ∀ (out : List (List NTup)) (q : Nat),
      (∀ r ∈ records, ownerOf parts r.i < out.length ∧ ownerOf parts r.j < out.length) →
      (distributeLoop parts out records).getD q [] =
        out.getD q [] ++ (records.flatMap (emitsOf parts)).filterMap
          (fun oe => if oe.1 = q then some oe.2 else none) := by
  induction records with
  | nil => intro out q _; simp [distributeLoop]
  | cons r rest ih =>
      intro out q hmem
      obtain ⟨hoi, hoj⟩ := hmem r (List.mem_cons_self r rest)
      rw [distributeLoop]
      rw [ih _ q (fun x hx => by
        have := hmem x (List.mem_cons_of_mem r hx)
        simpa [pushTo_length] using this)]
      rw [pushTo_getD _ _ _ _ (by simpa [pushTo_length] using hoj),
        pushTo_getD _ _ _ _ hoi]
      simp only [List.flatMap_cons, List.filterMap_append, emitsOf, List.filterMap_cons]
      by_cases h1 : ownerOf parts r.i = q <;> by_cases h2 : ownerOf parts r.j = q <;>
        simp [h1, h2, revOf]

theorem filterMap_sum_lengths (P : Nat) (xs : List (Nat × NTup)) (h : ∀ x ∈ xs, x.1 < P) :
    (∑ q ∈ Finset.range P,
      (xs.filterMap (fun oe => if oe.1 = q then some oe.2 else none)).length) = xs.length := by
  induction xs with
  | nil => simp
  | cons x xs ih =>
      have hx := h x (List.mem_cons_self x xs)
      have hrest := ih (fun y hy => h y (List.mem_cons_of_mem x hy))
      have hstep : ∀ q : Nat,
          ((x :: xs).filterMap (fun oe => if oe.1 = q then some oe.2 else none)).length =
            (if x.1 = q then 1 else 0) +
              (xs.filterMap (fun oe => if oe.1 = q then some oe.2 else none)).length := by
        intro q
        by_cases hq : x.1 = q
        · simp [List.filterMap_cons, hq, Nat.add_comm]
        · simp [List.filterMap_cons, hq]
      rw [Finset.sum_congr rfl (fun q _ => hstep q), Finset.sum_add_distrib, hrest,
        Finset.sum_ite_eq (Finset.range P) x.1 (fun _ => 1), if_pos (Finset.mem_range.mpr hx)]
      simp [Nat.add_comm]

theorem emits_length (parts : List Nat) (records : List NTup) :
    (records.flatMap (emitsOf parts)).length = 2 * records.length := by
  induction records with
  | nil => rfl
  | cons r rest ih =>
      simp only [List.flatMap_cons, List.length_append, ih, emitsOf]
      simp
      omega

theorem listSum_range (n : Nat) (f : Nat → Nat) :
    ((List.range n).map f).sum = ∑ i ∈ Finset.range n, f i := by
  induction n with
  | zero => rfl
  | succ k ih => rw [List.range_succ, List.map_append, List.sum_append, Finset.sum_range_succ, ih]; simp

theorem sum_getD_lengths (l : List (List NTup)) :
    (∑ p ∈ Finset.range l.length, (l.getD p []).length) = (l.map List.length).sum := by
  induction l with
  | nil => simp
  | cons a t ih =>
      simp only [List.length_cons, List.map_cons, List.sum_cons]
      rw [Finset.sum_range_succ']
      simp only [List.getD_cons_succ, List.getD_cons_zero]
      rw [ih]
      omega

theorem globalNumEdges_doubling (perRank : List (List NTup)) :
    globalNumEdgesOf perRank = 2 * (perRank.map List.length).sum := by
  induction perRank with
  | nil => rfl
  | cons a t ih =>
      simp only [globalNumEdgesOf, numEdgesLocal, List.map_cons, List.sum_cons] at ih ⊢
      omega


theorem replicate_getD_nil (P q : Nat) : (List.replicate P ([] : List NTup)).getD q [] = [] := by
  simp [List.getD_eq_getElem?_getD, List.getElem?_replicate]
  split <;> rfl

/-- C5: each raw record held locally is emitted as exactly the two directed
edges `(u, v, w)` — bucketed to the owner of `u` — and `(v, u, w)` — bucketed
to the owner of `v` — with identical weight (the first two conjuncts: the
emission pairs and the exact content of every rank's outgoing buckets);
`globalEdgeCount` equals twice the total number of raw records parsed across
all shards (third conjunct); and the per-process received edge counts after
the all-to-all exchange sum to exactly `globalEdgeCount` (fourth conjunct).
The hypotheses state the context the pipeline guarantees at this stage: at
least one process, one record list per rank, and all ids within
`[0, globalVertexCount)`. -/
theorem c5_redistribution_doubling (V P : Nat) (perRank : List (List NTup)) (hP : 1 ≤ P)
    (hlen : perRank.length = P)
    (hids : ∀ l ∈ perRank, ∀ r ∈ l, r.i < V ∧ r.j < V) :
    (∀ r : NTup, emitsOf (partsOf V P) r =
        [(ownerOf (partsOf V P) r.i, r), (ownerOf (partsOf V P) r.j, ⟨r.j, r.i, r.w⟩)]) ∧
    (∀ p q, (outEdgesOf (partsOf V P) P (perRank.getD p [])).getD q [] =
        ((perRank.getD p []).flatMap (emitsOf (partsOf V P))).filterMap
          (fun oe => if oe.1 = q then some oe.2 else none)) ∧
    globalNumEdgesOf perRank = 2 * (perRank.map List.length).sum ∧
    (∑ q ∈ Finset.range P, (receivedOf (partsOf V P) P perRank q).length) =
      globalNumEdgesOf perRank := by
  have hown : ∀ p, ∀ r ∈ perRank.getD p [],
      ownerOf (partsOf V P) r.i < P ∧ ownerOf (partsOf V P) r.j < P := by
    intro p r hr
    by_cases hp : p < perRank.length
    · have hmem : perRank.getD p [] ∈ perRank := by
        rw [List.getD_eq_getElem perRank [] hp]
        exact List.getElem_mem hp
      have := hids _ hmem r hr
      exact ⟨ownerOf_lt V P hP r.i this.1, ownerOf_lt V P hP r.j this.2⟩
    · rw [List.getD_eq_default perRank [] (by omega)] at hr
      simp at hr
  have hbucket : ∀ p q, (outEdgesOf (partsOf V P) P (perRank.getD p [])).getD q [] =
      ((perRank.getD p []).flatMap (emitsOf (partsOf V P))).filterMap
        (fun oe => if oe.1 = q then some oe.2 else none) := by
    intro p q
    unfold outEdgesOf
    rw [distributeLoop_getD (partsOf V P) (perRank.getD p []) (List.replicate P []) q
      (fun r hr => by simpa [List.length_replicate] using hown p r hr)]
    rw [replicate_getD_nil]
    rfl
  refine ⟨fun r => rfl, hbucket, globalNumEdges_doubling perRank, ?_⟩
  have hrecv : ∀ q, (receivedOf (partsOf V P) P perRank q).length =
      ∑ p ∈ Finset.range P, ((outEdgesOf (partsOf V P) P (perRank.getD p [])).getD q []).length := by
    intro q
    unfold receivedOf
    rw [List.length_flatten, ← listSum_range]
    congr 1
    rw [List.map_map]
    rfl
  have hinner : ∀ p, (∑ q ∈ Finset.range P,
      ((outEdgesOf (partsOf V P) P (perRank.getD p [])).getD q []).length) =
      2 * (perRank.getD p []).length := by
    intro p
    have : ∀ q, ((outEdgesOf (partsOf V P) P (perRank.getD p [])).getD q []).length =
        (((perRank.getD p []).flatMap (emitsOf (partsOf V P))).filterMap
          (fun oe => if oe.1 = q then some oe.2 else none)).length := by
      intro q
      rw [hbucket p q]
    rw [Finset.sum_congr rfl (fun q _ => this q)]
    rw [filterMap_sum_lengths P _ (by
      intro x hx
      rcases List.mem_flatMap.mp hx with ⟨r, hr, hxr⟩
      have ho := hown p r hr
      rcases List.mem_cons.mp hxr with h | h
      · subst h
        exact ho.1
      · rcases List.mem_cons.mp h with h2 | h2
        · subst h2
          exact ho.2
        · simp at h2)]
    exact emits_length (partsOf V P) (perRank.getD p [])
  calc (∑ q ∈ Finset.range P, (receivedOf (partsOf V P) P perRank q).length)
      = ∑ q ∈ Finset.range P, ∑ p ∈ Finset.range P,
          ((outEdgesOf (partsOf V P) P (perRank.getD p [])).getD q []).length := by
        exact Finset.sum_congr rfl (fun q _ => hrecv q)
    _ = ∑ p ∈ Finset.range P, ∑ q ∈ Finset.range P,
          ((outEdgesOf (partsOf V P) P (perRank.getD p [])).getD q []).length := Finset.sum_comm
    _ = ∑ p ∈ Finset.range P, 2 * (perRank.getD p []).length :=
        Finset.sum_congr rfl (fun p _ => hinner p)
    _ = 2 * ∑ p ∈ Finset.range P, (perRank.getD p []).length := by
        rw [Finset.mul_sum]
    _ = 2 * (perRank.map List.length).sum := by
        rw [← hlen, sum_getD_lengths]
    _ = globalNumEdgesOf perRank := (globalNumEdges_doubling perRank).symm


/-- Witness for C5: two processes, `globalVertexCount = 2`, each rank holding
one raw record. -/
theorem c5_redistribution_doubling_witness :
    (1 ≤ 2 ∧ ([[⟨0, 1, 5⟩], [⟨1, 0, 5⟩]] : List (List NTup)).length = 2 ∧
      (∀ l ∈ ([[⟨0, 1, 5⟩], [⟨1, 0, 5⟩]] : List (List NTup)), ∀ r ∈ l, r.i < 2 ∧ r.j < 2)) ∧
    ((∀ r : NTup, emitsOf (partsOf 2 2) r =
        [(ownerOf (partsOf 2 2) r.i, r), (ownerOf (partsOf 2 2) r.j, ⟨r.j, r.i, r.w⟩)]) ∧
    (∀ p q, (outEdgesOf (partsOf 2 2) 2 (([[⟨0, 1, 5⟩], [⟨1, 0, 5⟩]] :
          List (List NTup)).getD p [])).getD q [] =
        ((([[⟨0, 1, 5⟩], [⟨1, 0, 5⟩]] : List (List NTup)).getD p []).flatMap
          (emitsOf (partsOf 2 2))).filterMap
          (fun oe => if oe.1 = q then some oe.2 else none)) ∧
    globalNumEdgesOf [[⟨0, 1, 5⟩], [⟨1, 0, 5⟩]] =
      2 * (([[⟨0, 1, 5⟩], [⟨1, 0, 5⟩]] : List (List NTup)).map List.length).sum ∧
    (∑ q ∈ Finset.range 2,
        (receivedOf (partsOf 2 2) 2 [[⟨0, 1, 5⟩], [⟨1, 0, 5⟩]] q).length) =
      globalNumEdgesOf [[⟨0, 1, 5⟩], [⟨1, 0, 5⟩]]) :=
  ⟨⟨by decide, by decide, by decide⟩,
    c5_redistribution_doubling 2 2 [[⟨0, 1, 5⟩], [⟨1, 0, 5⟩]] (by decide) (by decide) (by decide)⟩

end Vite
